import Mathlib

/-!
Formal model of the RocksDB compaction job core declared in
`db/compaction/compaction_job.h`: the remote-compaction serialization
contract (`CompactionServiceInput` / `CompactionServiceResult`), the
subcompaction boundary partitioner, subcompaction resource limiting,
the sub-job executor with cooperative cancellation and proximal-level
routing, stats aggregation, and the atomic install step.

Machine integers are modelled as `Nat` (sizes, sequence numbers, file
numbers) and `Int` (C++ `int` fields such as `output_level`); C++
`std::string` byte strings (both key bytes and serialized wire data)
are modelled as `List Nat`, one element per byte-like token, with no
overflow relevant to any property proved here.
-/

/-- Byte-string model for C++ `std::string` values (keys, names, ids). -/
abbrev Str := List Nat

/- ===== Serialization primitives =====
The header only declares `Read`/`Write`; the wire format is modelled
from the spec: a reversible encode/decode pair with a leading format
version, where decoding an unknown version is an error. -/

/-- Modelled from the spec: encode one unsigned integer field. -/
def encNat (n : Nat) : List Nat := [n]

/-- Modelled from the spec: decode one unsigned integer field. -/
def decNat : List Nat → Option (Nat × List Nat)
  | [] => none
  | n :: r => some (n, r)

/-- Modelled from the spec: encode one boolean field. -/
def encBool (b : Bool) : List Nat := [if b then 1 else 0]

/-- Modelled from the spec: decode one boolean field; any token other
than 0 or 1 is malformed. -/
def decBool : List Nat → Option (Bool × List Nat)
  | 0 :: r => some (false, r)
  | 1 :: r => some (true, r)
  | _ => none

/-- Modelled from the spec: encode a C++ `int` field as one token via
a sign zig-zag. -/
def encInt (i : Int) : List Nat :=
  [if 0 ≤ i then 2 * i.toNat else 2 * (-i).toNat - 1]

/-- Modelled from the spec: decode a C++ `int` field. -/
def decInt : List Nat → Option (Int × List Nat)
  | [] => none
  | n :: r =>
    some (if n % 2 = 0 then ((n / 2 : Nat) : Int) else -(((n + 1) / 2 : Nat) : Int), r)

/-- Modelled from the spec: encode a byte string with a length header. -/
def encStr (s : Str) : List Nat := s.length :: s

/-- Modelled from the spec: decode a length-headed byte string; a
truncated payload is malformed. -/
def decStr (l : List Nat) : Option (Str × List Nat) :=
  match l with
  | [] => none
  | n :: r => if _h : n ≤ r.length then some (r.take n, r.drop n) else none

/-- Modelled from the spec: encode a repeated field with a count header. -/
def encList (enc : α → List Nat) (xs : List α) : List Nat :=
  xs.length :: (xs.map enc).flatten

/-- Decode `n` consecutive elements with the element decoder `dec`. -/
def decListGo (dec : List Nat → Option (α × List Nat)) :
    Nat → List Nat → Option (List α × List Nat)
  | 0, l => some ([], l)
  | n + 1, l =>
    match dec l with
    | none => none
    | some (x, r) =>
      match decListGo dec n r with
      | none => none
      | some (xs, r2) => some (x :: xs, r2)

/-- Modelled from the spec: decode a count-headed repeated field. -/
def decList (dec : List Nat → Option (α × List Nat)) (l : List Nat) :
    Option (List α × List Nat) :=
  match l with
  | [] => none
  | n :: r => decListGo dec n r

/-- Sequencing combinator for decoders: run `o`; on success feed the
decoded value and the remaining wire to `f`. -/
def dstep {β γ : Type _} (o : Option (β × List Nat)) (f : β → List Nat → Option γ) :
    Option γ :=
  match o with
  | none => none
  | some (a, r) => f a r

/- ===== CompactionServiceInput (header lines 405-435) =====
Field list and default values are taken from the struct definition in
`db/compaction/compaction_job.h`; C++ `SequenceNumber` is `Nat`, C++
`int` is `Int`. `end` is a Lean keyword, so the C++ field `end` is
named `end_`. -/

structure CompactionServiceInput where
  cf_name : Str
  snapshots : List Nat
  input_files : List Str
  output_level : Int
  db_id : Str
  has_begin : Bool
  begin : Str
  has_end : Bool
  end_ : Str
  options_file_number : Nat
deriving DecidableEq

/-- Default-constructed `CompactionServiceInput`, with the default
member initializers from the header (strings and vectors are empty by
their own default constructors). -/
def CompactionServiceInput.default : CompactionServiceInput :=
  { cf_name := []
    snapshots := []
    input_files := []
    output_level := 0
    db_id := []
    has_begin := false
    begin := []
    has_end := false
    end_ := []
    options_file_number := 0 }

/-- Modelled from the spec: the descriptor format version written by
`CompactionServiceInput::Write`; decoding any other version fails. -/
def inputFormatVersion : Nat := 1

/-- Modelled from the spec: `CompactionServiceInput::Write`, the
missing serialization implementation — a version header followed by
every field in declaration order. -/
def CompactionServiceInput.Write (x : CompactionServiceInput) : List Nat :=
  inputFormatVersion ::
    (encStr x.cf_name ++ encList encNat x.snapshots ++ encList encStr x.input_files ++
      encInt x.output_level ++ encStr x.db_id ++ encBool x.has_begin ++ encStr x.begin ++
      encBool x.has_end ++ encStr x.end_ ++ encNat x.options_file_number)

/-- Modelled from the spec: `CompactionServiceInput::Read`, the missing
deserialization implementation. An unknown version, a malformed field
or trailing bytes are decode failures (`none`); no partly-populated
object is ever produced. -/
def CompactionServiceInput.Read (data : List Nat) : Option CompactionServiceInput :=
  match data with
  | [] => none
  | v :: rest =>
    if v = inputFormatVersion then
      dstep (decStr rest) fun cf_name r1 =>
      dstep (decList decNat r1) fun snapshots r2 =>
      dstep (decList decStr r2) fun input_files r3 =>
      dstep (decInt r3) fun output_level r4 =>
      dstep (decStr r4) fun db_id r5 =>
      dstep (decBool r5) fun has_begin r6 =>
      dstep (decStr r6) fun begin_key r7 =>
      dstep (decBool r7) fun has_end r8 =>
      dstep (decStr r8) fun end_key r9 =>
      dstep (decNat r9) fun options_file_number r10 =>
      match r10 with
      | [] => some ⟨cf_name, snapshots, input_files, output_level, db_id, has_begin,
          begin_key, has_end, end_key, options_file_number⟩
      | _ => none
    else none

/- ===== CompactionServiceResult and its nested types (header lines 437-523) ===== -/

/-- File temperature tier (`Temperature` enum used by
`CompactionServiceOutputFile::file_temperature`). -/
inductive Temperature where
  | kUnknown
  | kHot
  | kWarm
  | kCold
deriving DecidableEq

/-- Modelled from the spec: encode a temperature tier. -/
def encTemperature : Temperature → List Nat
  | .kUnknown => [0]
  | .kHot => [1]
  | .kWarm => [2]
  | .kCold => [3]

/-- Modelled from the spec: decode a temperature tier; an unknown code
is malformed. -/
def decTemperature : List Nat → Option (Temperature × List Nat)
  | 0 :: r => some (.kUnknown, r)
  | 1 :: r => some (.kHot, r)
  | 2 :: r => some (.kWarm, r)
  | 3 :: r => some (.kCold, r)
  | _ => none

/-- The 128-bit unique file identifier `UniqueId64x2`. -/
abbrev UniqueId64x2 := Nat × Nat

/-- Modelled from the spec: encode a `UniqueId64x2`. -/
def encUniqueId (u : UniqueId64x2) : List Nat := [u.1, u.2]

/-- Modelled from the spec: decode a `UniqueId64x2`. -/
def decUniqueId : List Nat → Option (UniqueId64x2 × List Nat)
  | a :: b :: r => some ((a, b), r)
  | _ => none

/-- Reduced model of the per-file property block (`TableProperties`)
carried by `CompactionServiceOutputFile`. -/
structure TableProperties where
  num_entries : Nat
  raw_key_size : Nat
  raw_value_size : Nat
  data_size : Nat
deriving DecidableEq

/-- Modelled from the spec: encode a property block. -/
def encTableProperties (t : TableProperties) : List Nat :=
  [t.num_entries, t.raw_key_size, t.raw_value_size, t.data_size]

/-- Modelled from the spec: decode a property block. -/
def decTableProperties : List Nat → Option (TableProperties × List Nat)
  | a :: b :: c :: d :: r => some (⟨a, b, c, d⟩, r)
  | _ => none

/-- Model of `rocksdb::Status`: a numeric code (0 = OK) plus a message.
`ok` is `code = 0`. -/
structure Status where
  code : Nat
  msg : Str
deriving DecidableEq

/-- `Status::ok()`. -/
def Status.ok (s : Status) : Bool := s.code = 0

/-- Modelled from the spec: encode a status. -/
def encStatus (s : Status) : List Nat := s.code :: encStr s.msg

/-- Modelled from the spec: decode a status. -/
def decStatus (l : List Nat) : Option (Status × List Nat) :=
  match l with
  | [] => none
  | c :: r => dstep (decStr r) fun m r2 => some (⟨c, m⟩, r2)

/-- Reduced model of the public `CompactionJobStats` counter set
(`job_stats_`): a representative selection of job-wide counters. -/
structure CompactionJobStats where
  num_input_records : Nat
  num_output_records : Nat
  num_output_files : Nat
  num_dropped_records : Nat
deriving DecidableEq

/-- Modelled from the spec: encode a job-stats counter set. -/
def encJobStats (s : CompactionJobStats) : List Nat :=
  [s.num_input_records, s.num_output_records, s.num_output_files, s.num_dropped_records]

/-- Modelled from the spec: decode a job-stats counter set. -/
def decJobStats : List Nat → Option (CompactionJobStats × List Nat)
  | a :: b :: c :: d :: r => some (⟨a, b, c, d⟩, r)
  | _ => none

/-- Reduced model of one per-output-level accumulator of
`InternalStats::CompactionStats`. -/
structure CompactionStats where
  num_output_records : Nat
  num_output_files : Nat
deriving DecidableEq

/-- Modelled from the spec: encode one per-level accumulator. -/
def encCompactionStats (s : CompactionStats) : List Nat :=
  [s.num_output_records, s.num_output_files]

/-- Modelled from the spec: decode one per-level accumulator. -/
def decCompactionStats : List Nat → Option (CompactionStats × List Nat)
  | a :: b :: r => some (⟨a, b⟩, r)
  | _ => none

/-- `InternalStats::CompactionStatsFull`: one accumulator for the
ordinary output level and one for the proximal output level. -/
structure CompactionStatsFull where
  output_level_stats : CompactionStats
  proximal_level_stats : CompactionStats
deriving DecidableEq

/-- Modelled from the spec: encode the two-accumulator internal stats. -/
def encStatsFull (s : CompactionStatsFull) : List Nat :=
  encCompactionStats s.output_level_stats ++ encCompactionStats s.proximal_level_stats

/-- Modelled from the spec: decode the two-accumulator internal stats. -/
def decStatsFull (l : List Nat) : Option (CompactionStatsFull × List Nat) :=
  dstep (decCompactionStats l) fun a r1 =>
  dstep (decCompactionStats r1) fun b r2 =>
  some (⟨a, b⟩, r2)

/-- `CompactionServiceOutputFile` (header lines 438-485): full metadata
for one output SST file, as declared in the source. -/
structure CompactionServiceOutputFile where
  file_name : Str
  file_size : Nat
  smallest_seqno : Nat
  largest_seqno : Nat
  smallest_internal_key : Str
  largest_internal_key : Str
  oldest_ancester_time : Nat
  file_creation_time : Nat
  epoch_number : Nat
  file_checksum : Str
  file_checksum_func_name : Str
  paranoid_hash : Nat
  marked_for_compaction : Bool
  unique_id : UniqueId64x2
  table_properties : TableProperties
  is_proximal_level_output : Bool
  file_temperature : Temperature
deriving DecidableEq

/-- Modelled from the spec: encode one output-file metadata record,
fields in declaration order. -/
def encOutputFile (f : CompactionServiceOutputFile) : List Nat :=
  encStr f.file_name ++ encNat f.file_size ++ encNat f.smallest_seqno ++
    encNat f.largest_seqno ++ encStr f.smallest_internal_key ++
    encStr f.largest_internal_key ++ encNat f.oldest_ancester_time ++
    encNat f.file_creation_time ++ encNat f.epoch_number ++ encStr f.file_checksum ++
    encStr f.file_checksum_func_name ++ encNat f.paranoid_hash ++
    encBool f.marked_for_compaction ++ encUniqueId f.unique_id ++
    encTableProperties f.table_properties ++ encBool f.is_proximal_level_output ++
    encTemperature f.file_temperature

/-- Modelled from the spec: decode one output-file metadata record. -/
def decOutputFile (l : List Nat) : Option (CompactionServiceOutputFile × List Nat) :=
  dstep (decStr l) fun file_name r1 =>
  dstep (decNat r1) fun file_size r2 =>
  dstep (decNat r2) fun smallest_seqno r3 =>
  dstep (decNat r3) fun largest_seqno r4 =>
  dstep (decStr r4) fun smallest_internal_key r5 =>
  dstep (decStr r5) fun largest_internal_key r6 =>
  dstep (decNat r6) fun oldest_ancester_time r7 =>
  dstep (decNat r7) fun file_creation_time r8 =>
  dstep (decNat r8) fun epoch_number r9 =>
  dstep (decStr r9) fun file_checksum r10 =>
  dstep (decStr r10) fun file_checksum_func_name r11 =>
  dstep (decNat r11) fun paranoid_hash r12 =>
  dstep (decBool r12) fun marked_for_compaction r13 =>
  dstep (decUniqueId r13) fun unique_id r14 =>
  dstep (decTableProperties r14) fun table_properties r15 =>
  dstep (decBool r15) fun is_proximal_level_output r16 =>
  dstep (decTemperature r16) fun file_temperature r17 =>
  some (⟨file_name, file_size, smallest_seqno, largest_seqno, smallest_internal_key,
    largest_internal_key, oldest_ancester_time, file_creation_time, epoch_number,
    file_checksum, file_checksum_func_name, paranoid_hash, marked_for_compaction,
    unique_id, table_properties, is_proximal_level_output, file_temperature⟩, r17)

/-- `CompactionServiceResult` (header lines 490-523): outcome
descriptor of a remote compaction, as declared in the source. -/
structure CompactionServiceResult where
  status : Status
  output_files : List CompactionServiceOutputFile
  output_level : Int
  output_path : Str
  bytes_read : Nat
  bytes_written : Nat
  stats : CompactionJobStats
  internal_stats : CompactionStatsFull
deriving DecidableEq

/-- Modelled from the spec: the result format version written by
`CompactionServiceResult::Write`; decoding any other version fails. -/
def resultFormatVersion : Nat := 1

/-- Modelled from the spec: `CompactionServiceResult::Write`, the
missing serialization implementation — a version header followed by
every field in declaration order. -/
def CompactionServiceResult.Write (x : CompactionServiceResult) : List Nat :=
  resultFormatVersion ::
    (encStatus x.status ++ encList encOutputFile x.output_files ++
      encInt x.output_level ++ encStr x.output_path ++ encNat x.bytes_read ++
      encNat x.bytes_written ++ encJobStats x.stats ++ encStatsFull x.internal_stats)

/-- Modelled from the spec: `CompactionServiceResult::Read`, the
missing deserialization implementation. An unknown version, a
malformed field or trailing bytes are decode failures (`none`); no
partly-populated object is ever produced. -/
def CompactionServiceResult.Read (data : List Nat) : Option CompactionServiceResult :=
  match data with
  | [] => none
  | v :: rest =>
    if v = resultFormatVersion then
      dstep (decStatus rest) fun status r1 =>
      dstep (decList decOutputFile r1) fun output_files r2 =>
      dstep (decInt r2) fun output_level r3 =>
      dstep (decStr r3) fun output_path r4 =>
      dstep (decNat r4) fun bytes_read r5 =>
      dstep (decNat r5) fun bytes_written r6 =>
      dstep (decJobStats r6) fun stats r7 =>
      dstep (decStatsFull r7) fun internal_stats r8 =>
      match r8 with
      | [] => some ⟨status, output_files, output_level, output_path, bytes_read,
          bytes_written, stats, internal_stats⟩
      | _ => none
    else none

/- ===== Installer (CompactionJob::Install / InstallCompactionResults) =====
Modelled from the spec: the catalog is the set of live sorted-run file
numbers; Install builds one edit that removes every input file and
adds every output file, applies it as a single atomic step, releases
the input files' reservation exactly once on application, and reports
through the out-parameter `compaction_released` whether the edit was
applied. -/

/-- One atomic catalog edit: delete all `inputs`, add all `outs`. -/
def applyVersionEdit (live inputs outs : List Nat) : List Nat :=
  live.filter (fun f => decide (f ∉ inputs)) ++ outs

/-- Result of `CompactionJob::Install`: the returned status (`true` =
OK), the catalog after the call, the `*compaction_released`
out-parameter, and how many times the input files' reservation was
released. -/
structure InstallResult where
  ok : Bool
  catalog : List Nat
  compaction_released : Bool
  releaseCount : Nat
deriving DecidableEq

/-- Modelled from the spec: `CompactionJob::Install`. `jobOk` is the
status carried out of `Run`; `applyOk` is whether the catalog's
log-and-apply of the edit succeeds. On success the single edit is
applied and the reservation released exactly once; on error nothing is
applied or released and the out-parameter stays false. -/
def Install (jobOk applyOk : Bool) (catalog inputs outs : List Nat) : InstallResult :=
  if jobOk && applyOk then
    ⟨true, applyVersionEdit catalog inputs outs, true, 1⟩
  else
    ⟨false, catalog, false, 0⟩

/- ===== Resource reservation and boundary merging =====
Modelled from the spec: `GetSubcompactionsLimit` plans from the
configured maximum plus the extra round-robin reservation; if the
planner produced more ranges than the granted slots, adjacent ranges
are merged down to exactly the granted count, in order. -/

/-- Modelled from the spec: `CompactionJob::GetSubcompactionsLimit` —
the planned subcompaction count from `max_subcompactions` plus the
extra reserved threads (at least the job's own thread). -/
def GetSubcompactionsLimit (max_subcompactions extraReserved : Nat) : Nat :=
  max (extraReserved + 1) max_subcompactions

/-- One contiguous key range of a sub-job. -/
abbrev KeyRange := Nat × Nat

/-- Split a list into exactly `g` contiguous groups, in order. -/
def groupInto : Nat → List α → List (List α)
  | 0, _ => []
  | 1, xs => [xs]
  | g + 2, xs =>
    xs.take (xs.length / (g + 2)) :: groupInto (g + 1) (xs.drop (xs.length / (g + 2)))

/-- Merge one contiguous group of adjacent ranges into a single range. -/
def mergeGroup (g : List KeyRange) : KeyRange :=
  ((g.head?.getD (0, 0)).1, (g.getLast?.getD (0, 0)).2)

/-- Modelled from the spec: the ranges actually launched. If the
planner produced no more ranges than granted slots they run as-is;
otherwise adjacent ranges are merged down to exactly the granted
count. -/
def launchSubJobRanges (granted : Nat) (ranges : List KeyRange) : List KeyRange :=
  if ranges.length ≤ granted then ranges
  else (groupInto granted ranges).map mergeGroup

/- ===== Boundary partitioner (CompactionJob::GenSubcompactionBoundaries) =====
Modelled from the spec: collect every input file's start/end key as a
candidate split point, sort and deduplicate them, estimate the data
volume between consecutive candidates with the external size estimator
`szf`, and greedily emit a boundary whenever the running volume reaches
`total / K`, up to `K - 1` boundaries. Keys are opaque comparable
values, modelled as `Nat`. -/

/-- One input SST file's key span. -/
structure InputFile where
  smallest : Nat
  largest : Nat
deriving DecidableEq

/-- Insert a key into a strictly sorted list, keeping it strictly
sorted and duplicate-free. -/
def insertKey (x : Nat) : List Nat → List Nat
  | [] => [x]
  | y :: ys => if x < y then x :: y :: ys else if x = y then y :: ys else y :: insertKey x ys

/-- Sort and deduplicate a key list. -/
def sortedDedup (l : List Nat) : List Nat := l.foldr insertKey []

/-- The sorted, deduplicated candidate split points: every input
file's start and end key. -/
def candidateKeys (files : List InputFile) : List Nat :=
  sortedDedup ((files.map (fun f => [f.smallest, f.largest])).flatten)

/-- Consecutive candidate pairs, i.e. the inter-candidate intervals. -/
def adjPairs : List Nat → List (Nat × Nat)
  | [] => []
  | [_] => []
  | a :: b :: rest => (a, b) :: adjPairs (b :: rest)

/-- Greedy grouping of the intervals: emit an interval's end key as a
boundary when the running estimated volume reaches the target, never
at the global end key, and at most `lim` boundaries in total. -/
def greedyPick (szf : Nat → Nat → Nat) (target : Nat) :
    Nat → Nat → List (Nat × Nat) → List Nat
  | _, _, [] => []
  | _, _, [_] => []
  | 0, _, _ :: _ :: _ => []
  | lim + 1, acc, iv :: iv2 :: rest =>
    if target ≤ acc + szf iv.1 iv.2 then
      iv.2 :: greedyPick szf target lim 0 (iv2 :: rest)
    else
      greedyPick szf target (lim + 1) (acc + szf iv.1 iv.2) (iv2 :: rest)

/-- Modelled from the spec: `CompactionJob::GenSubcompactionBoundaries`
for a target sub-job count `K`, with `szf` the external approximate
size estimator for a key range. -/
def GenSubcompactionBoundaries (szf : Nat → Nat → Nat) (files : List InputFile)
    (K : Nat) : List Nat :=
  let cands := candidateKeys files
  let ivs := adjPairs cands
  let total := (ivs.map (fun p => szf p.1 p.2)).sum
  greedyPick szf (total / K) (K - 1) 0 ivs

/-- The sub-ranges induced over the span `[lo, hi)` by an ordered
boundary list: `[lo, b1), [b1, b2), …, [bm, hi)`. -/
def inducedRanges (lo hi : Nat) : List Nat → List (Nat × Nat)
  | [] => [(lo, hi)]
  | b :: bs => (lo, b) :: inducedRanges b hi bs

/- ===== Sub-job executor (ProcessKeyValueCompaction) =====
Modelled from the spec: each sub-job pulls decided records from its
merge/filter iterator; before each record it checks the shared
shutdown/manual-cancellation flags (modelled by the first record index
`cancelAt` at which the sub-job observes a set flag) and a possible IO
failure (`failAt`); a dropped record is tallied, an output record is
routed to the proximal accumulator exactly when its sequence number
exceeds `proximal_after_seqno_`, else to the primary accumulator. -/

/-- One decided record from the merge/filter iterator: key, sequence
number, and whether the iterator decided to drop it. -/
structure DRec where
  key : Nat
  seqno : Nat
  drop : Bool
deriving DecidableEq

/-- Terminal state of one sub-job. -/
inductive SubStatus where
  | succeeded
  | failed
  | canceled
deriving DecidableEq

/-- The plan of one sub-job: the record index at which the cooperative
check first observes a set shutdown/cancel flag (`cancelAt ≥` record
count means never), an optional record index at which an IO error
hits, the record stream of its key range, and the file numbers its two
accumulators would finalize to. -/
structure SubJobSpec where
  cancelAt : Nat
  failAt : Option Nat
  recs : List DRec
  fnPrimary : Nat
  fnProximal : Nat
deriving DecidableEq

/-- Outcome of one sub-job: the records in the primary and proximal
output accumulators, the dropped-key tally, and the terminal status. -/
structure SubRun where
  primary : List DRec
  proximal : List DRec
  dropped : Nat
  status : SubStatus
deriving DecidableEq

/-- Process one decided record against the state reached after the
rest of the loop: tally a dropped record, else route by the
sequence-number demotion policy. -/
def stepRec (thresh : Nat) (r : DRec) (s : SubRun) : SubRun :=
  if r.drop then ⟨s.primary, s.proximal, s.dropped + 1, s.status⟩
  else if thresh < r.seqno then ⟨s.primary, r :: s.proximal, s.dropped, s.status⟩
  else ⟨r :: s.primary, s.proximal, s.dropped, s.status⟩

/-- The record-processing loop, from record index `i`. -/
def execGo (thresh cancelAt : Nat) (failAt : Option Nat) : Nat → List DRec → SubRun
  | _, [] => ⟨[], [], 0, .succeeded⟩
  | i, r :: rest =>
    if cancelAt ≤ i then ⟨[], [], 0, .canceled⟩
    else if failAt = some i then ⟨[], [], 0, .failed⟩
    else stepRec thresh r (execGo thresh cancelAt failAt (i + 1) rest)

/-- Run one sub-job against the demotion threshold
`proximal_after_seqno_`. -/
def execSubJob (thresh : Nat) (sj : SubJobSpec) : SubRun :=
  execGo thresh sj.cancelAt sj.failAt 0 sj.recs

/-- The output files a sub-job finalizes: accumulators are opened
lazily, so an accumulator with no records produces no file. -/
def outputFilesOf (sj : SubJobSpec) (sr : SubRun) : List Nat :=
  (if sr.primary.isEmpty then [] else [sj.fnPrimary]) ++
    (if sr.proximal.isEmpty then [] else [sj.fnProximal])

/-- All output files of a job's sub-jobs. -/
def jobOutputFiles (thresh : Nat) (subs : List SubJobSpec) : List Nat :=
  (subs.map (fun sj => outputFilesOf sj (execSubJob thresh sj))).flatten

/-- `Run` succeeds iff every sub-job succeeded. -/
def runStatusOk (thresh : Nat) (subs : List SubJobSpec) : Bool :=
  subs.all (fun sj =>
    match (execSubJob thresh sj).status with
    | .succeeded => true
    | _ => false)

/-- Modelled from the spec: the whole `Run`-then-`Install` pipeline.
`Install` is reached only when `Run` succeeded; otherwise the catalog
is untouched, nothing is released and the outputs stay unreferenced. -/
def runAndInstall (thresh : Nat) (subs : List SubJobSpec) (applyOk : Bool)
    (catalog inputs : List Nat) : InstallResult :=
  Install (runStatusOk thresh subs) applyOk catalog inputs (jobOutputFiles thresh subs)

/- ===== Stats aggregation =====
Modelled from the spec: `job_stats_` aggregates each sub-job's
`compaction_job_stats`; the dropped-key counters are recorded directly
from the merge stream (`RecordDroppedKeys`), not re-derived from the
per-level accumulators; `internal_stats_` aggregates each sub-job's
two per-output-level accumulators. -/

/-- Aggregate the public job-wide stats over the sub-jobs. -/
def aggregateJobStats (thresh : Nat) : List SubJobSpec → CompactionJobStats
  | [] => ⟨0, 0, 0, 0⟩
  | sj :: rest =>
    let sr := execSubJob thresh sj
    let acc := aggregateJobStats thresh rest
    ⟨sr.primary.length + sr.proximal.length + sr.dropped + acc.num_input_records,
      sr.primary.length + sr.proximal.length + acc.num_output_records,
      (outputFilesOf sj sr).length + acc.num_output_files,
      sr.dropped + acc.num_dropped_records⟩

/-- Aggregate the internal per-output-level stats over the sub-jobs. -/
def aggregateInternalStats (thresh : Nat) : List SubJobSpec → CompactionStatsFull
  | [] => ⟨⟨0, 0⟩, ⟨0, 0⟩⟩
  | sj :: rest =>
    let sr := execSubJob thresh sj
    let acc := aggregateInternalStats thresh rest
    ⟨⟨sr.primary.length + acc.output_level_stats.num_output_records,
        (if sr.primary.isEmpty then 0 else 1) + acc.output_level_stats.num_output_files⟩,
      ⟨sr.proximal.length + acc.proximal_level_stats.num_output_records,
        (if sr.proximal.isEmpty then 0 else 1) + acc.proximal_level_stats.num_output_files⟩⟩

/-- The independently computed dropped-record total of the whole merge
stream. -/
def mergeStreamDropped (subs : List SubJobSpec) : Nat :=
  (((subs.map (fun sj => sj.recs)).flatten).filter (fun r => r.drop)).length

/-- The independently computed output-record total of the whole merge
stream. -/
def mergeStreamOutput (subs : List SubJobSpec) : Nat :=
  (((subs.map (fun sj => sj.recs)).flatten).filter (fun r => !r.drop)).length

/-- The total record count of the whole merge stream. -/
def mergeStreamInput (subs : List SubJobSpec) : Nat :=
  ((subs.map (fun sj => sj.recs)).flatten).length

/- ===== Round-trip and canonicity lemmas for the primitives ===== -/

theorem decNat_enc (n : Nat) (r : List Nat) : decNat (encNat n ++ r) = some (n, r) := rfl

theorem decNat_sound {l : List Nat} {n : Nat} {r : List Nat}
    (h : decNat l = some (n, r)) : l = encNat n ++ r := by
  match l with
  | [] => simp [decNat] at h
  | m :: t =>
    simp only [decNat, Option.some.injEq, Prod.mk.injEq] at h
    obtain ⟨h1, h2⟩ := h
    subst h1; subst h2; rfl

theorem decBool_enc (b : Bool) (r : List Nat) : decBool (encBool b ++ r) = some (b, r) := by
  cases b <;> rfl

theorem decBool_sound {l : List Nat} {b : Bool} {r : List Nat}
    (h : decBool l = some (b, r)) : l = encBool b ++ r := by
  match l with
  | [] => simp [decBool] at h
  | 0 :: t =>
    simp only [decBool, Option.some.injEq, Prod.mk.injEq] at h
    obtain ⟨h1, h2⟩ := h
    subst h1; subst h2; rfl
  | 1 :: t =>
    simp only [decBool, Option.some.injEq, Prod.mk.injEq] at h
    obtain ⟨h1, h2⟩ := h
    subst h1; subst h2; rfl
  | (m + 2) :: t => simp [decBool] at h

theorem decInt_enc (i : Int) (r : List Nat) : decInt (encInt i ++ r) = some (i, r) := by
  by_cases h : 0 ≤ i
  · simp only [encInt, if_pos h, List.cons_append, List.nil_append, decInt]
    rw [if_pos (by omega)]
    simp only [Option.some.injEq, Prod.mk.injEq, and_true]
    omega
  · simp only [encInt, if_neg h, List.cons_append, List.nil_append, decInt]
    rw [if_neg (by omega)]
    simp only [Option.some.injEq, Prod.mk.injEq, and_true]
    omega

theorem decInt_sound {l : List Nat} {i : Int} {r : List Nat}
    (h : decInt l = some (i, r)) : l = encInt i ++ r := by
  match l with
  | [] => simp [decInt] at h
  | n :: t =>
    simp only [decInt, Option.some.injEq, Prod.mk.injEq] at h
    obtain ⟨h1, h2⟩ := h
    subst h1; subst h2
    simp only [encInt, List.cons_append, List.nil_append, List.cons.injEq, and_true]
    by_cases hp : n % 2 = 0
    · rw [if_pos hp, if_pos (by omega)]
      omega
    · rw [if_neg hp, if_neg (by omega)]
      omega

theorem decStr_enc (s : Str) (r : List Nat) : decStr (encStr s ++ r) = some (s, r) := by
  simp only [encStr, List.cons_append, decStr]
  rw [dif_pos (by simp)]
  rw [List.take_left, List.drop_left]

theorem decStr_sound {l : List Nat} {s : Str} {r : List Nat}
    (h : decStr l = some (s, r)) : l = encStr s ++ r := by
  match l with
  | [] => simp [decStr] at h
  | n :: t =>
    simp only [decStr] at h
    split at h
    · next hle =>
      simp only [Option.some.injEq, Prod.mk.injEq] at h
      obtain ⟨h1, h2⟩ := h
      subst h1; subst h2
      simp only [encStr, List.length_take, List.cons_append, List.cons.injEq]
      exact ⟨by omega, by rw [List.take_append_drop]⟩
    · exact absurd h (by simp)

theorem decListGo_enc {enc : α → List Nat} {dec : List Nat → Option (α × List Nat)}
    (henc : ∀ x r, dec (enc x ++ r) = some (x, r)) :
    ∀ (xs : List α) (r : List Nat),
      decListGo dec xs.length ((xs.map enc).flatten ++ r) = some (xs, r) := by
  intro xs
  induction xs with
  | nil => intro r; simp [decListGo]
  | cons x xs ih =>
    intro r
    simp only [List.map_cons, List.flatten_cons, List.length_cons, List.append_assoc,
      decListGo, henc, ih]

theorem decList_enc {enc : α → List Nat} {dec : List Nat → Option (α × List Nat)}
    (henc : ∀ x r, dec (enc x ++ r) = some (x, r)) (xs : List α) (r : List Nat) :
    decList dec (encList enc xs ++ r) = some (xs, r) := by
  simp only [encList, List.cons_append, decList]
  exact decListGo_enc henc xs r

theorem decListGo_sound {enc : α → List Nat} {dec : List Nat → Option (α × List Nat)}
    (hs : ∀ {l x r}, dec l = some (x, r) → l = enc x ++ r) :
    ∀ (n : Nat) (l : List Nat) (xs : List α) (r : List Nat),
      decListGo dec n l = some (xs, r) →
      xs.length = n ∧ l = (xs.map enc).flatten ++ r := by
  intro n
  induction n with
  | zero =>
    intro l xs r h
    simp only [decListGo, Option.some.injEq, Prod.mk.injEq] at h
    obtain ⟨h1, h2⟩ := h
    subst h1; subst h2
    simp
  | succ n ih =>
    intro l xs r h
    simp only [decListGo] at h
    split at h
    · simp at h
    · next x r1 heq =>
      split at h
      · simp at h
      · next xs1 r2 heq2 =>
        simp only [Option.some.injEq, Prod.mk.injEq] at h
        obtain ⟨h1, h2⟩ := h
        subst h1; subst h2
        obtain ⟨hl, hr⟩ := ih r1 xs1 r2 heq2
        constructor
        · simp [hl]
        · rw [hs heq, hr]
          simp [List.append_assoc]

theorem decList_sound {enc : α → List Nat} {dec : List Nat → Option (α × List Nat)}
    (hs : ∀ {l x r}, dec l = some (x, r) → l = enc x ++ r)
    {l : List Nat} {xs : List α} {r : List Nat}
    (h : decList dec l = some (xs, r)) : l = encList enc xs ++ r := by
  match l with
  | [] => simp [decList] at h
  | n :: t =>
    simp only [decList] at h
    obtain ⟨hl, hr⟩ := decListGo_sound hs n t xs r h
    simp only [encList, List.cons_append]
    rw [hl, hr]

theorem dstep_some {β γ : Type _} (a : β) (r : List Nat) (f : β → List Nat → Option γ) :
    dstep (some (a, r)) f = f a r := rfl

theorem dstep_eq_some {β γ : Type _} {o : Option (β × List Nat)}
    {f : β → List Nat → Option γ} {y : γ} :
    dstep o f = some y ↔ ∃ a r, o = some (a, r) ∧ f a r = some y := by
  constructor
  · intro h
    match o with
    | none => simp [dstep] at h
    | some (a, r) => exact ⟨a, r, rfl, h⟩
  · rintro ⟨a, r, ho, h⟩
    rw [ho]
    exact h

theorem decNat_enc_nil (n : Nat) : decNat (encNat n) = some (n, []) := rfl

theorem input_read_write (x : CompactionServiceInput) :
    CompactionServiceInput.Read x.Write = some x := by
  simp only [CompactionServiceInput.Write, CompactionServiceInput.Read, List.append_assoc,
    eq_self_iff_true, if_true, decStr_enc, decList_enc decNat_enc, decList_enc decStr_enc,
    decInt_enc, decBool_enc, decNat_enc, decNat_enc_nil, dstep_some]

theorem input_write_of_read {l : List Nat} {x : CompactionServiceInput}
    (h : CompactionServiceInput.Read l = some x) : l = x.Write := by
  match l with
  | [] => simp [CompactionServiceInput.Read] at h
  | v :: rest =>
    simp only [CompactionServiceInput.Read] at h
    split at h
    · next hv =>
      subst hv
      rw [dstep_eq_some] at h
      obtain ⟨cf_name, r1, d1, h⟩ := h
      rw [dstep_eq_some] at h
      obtain ⟨snapshots, r2, d2, h⟩ := h
      rw [dstep_eq_some] at h
      obtain ⟨input_files, r3, d3, h⟩ := h
      rw [dstep_eq_some] at h
      obtain ⟨output_level, r4, d4, h⟩ := h
      rw [dstep_eq_some] at h
      obtain ⟨db_id, r5, d5, h⟩ := h
      rw [dstep_eq_some] at h
      obtain ⟨has_begin, r6, d6, h⟩ := h
      rw [dstep_eq_some] at h
      obtain ⟨begin_key, r7, d7, h⟩ := h
      rw [dstep_eq_some] at h
      obtain ⟨has_end, r8, d8, h⟩ := h
      rw [dstep_eq_some] at h
      obtain ⟨end_key, r9, d9, h⟩ := h
      rw [dstep_eq_some] at h
      obtain ⟨options_file_number, r10, d10, h⟩ := h
      match r10 with
      | [] =>
        simp only [Option.some.injEq] at h
        subst h
        rw [decStr_sound d1, decList_sound (fun {l x r} => decNat_sound) d2,
          decList_sound (fun {l x r} => decStr_sound) d3, decInt_sound d4,
          decStr_sound d5, decBool_sound d6, decStr_sound d7, decBool_sound d8,
          decStr_sound d9, decNat_sound d10]
        simp [CompactionServiceInput.Write, List.append_assoc]
      | _ :: _ => simp at h
    · simp at h

theorem decTemperature_enc (t : Temperature) (r : List Nat) :
    decTemperature (encTemperature t ++ r) = some (t, r) := by
  cases t <;> rfl

theorem decTemperature_enc_nil (t : Temperature) :
    decTemperature (encTemperature t) = some (t, []) := by
  have := decTemperature_enc t []
  rwa [List.append_nil] at this

theorem decTemperature_sound {l : List Nat} {t : Temperature} {r : List Nat}
    (h : decTemperature l = some (t, r)) : l = encTemperature t ++ r := by
  match l with
  | [] => simp [decTemperature] at h
  | 0 :: s | 1 :: s | 2 :: s | 3 :: s =>
    simp only [decTemperature, Option.some.injEq, Prod.mk.injEq] at h
    obtain ⟨h1, h2⟩ := h
    subst h1; subst h2; rfl
  | (m + 4) :: s => simp [decTemperature] at h

theorem decUniqueId_enc (u : UniqueId64x2) (r : List Nat) :
    decUniqueId (encUniqueId u ++ r) = some (u, r) := rfl

theorem decUniqueId_sound {l : List Nat} {u : UniqueId64x2} {r : List Nat}
    (h : decUniqueId l = some (u, r)) : l = encUniqueId u ++ r := by
  match l with
  | [] => simp [decUniqueId] at h
  | [a] => simp [decUniqueId] at h
  | a :: b :: s =>
    simp only [decUniqueId, Option.some.injEq, Prod.mk.injEq] at h
    obtain ⟨h1, h2⟩ := h
    subst h1; subst h2; rfl

theorem decTableProperties_enc (t : TableProperties) (r : List Nat) :
    decTableProperties (encTableProperties t ++ r) = some (t, r) := rfl

theorem decTableProperties_sound {l : List Nat} {t : TableProperties} {r : List Nat}
    (h : decTableProperties l = some (t, r)) : l = encTableProperties t ++ r := by
  match l with
  | [] | [_] | [_, _] | [_, _, _] => simp [decTableProperties] at h
  | a :: b :: c :: d :: s =>
    simp only [decTableProperties, Option.some.injEq, Prod.mk.injEq] at h
    obtain ⟨h1, h2⟩ := h
    subst h1; subst h2; rfl

theorem decStatus_enc (s : Status) (r : List Nat) :
    decStatus (encStatus s ++ r) = some (s, r) := by
  simp only [encStatus, List.cons_append, decStatus, List.append_assoc, decStr_enc,
    dstep_some]

theorem decStatus_sound {l : List Nat} {s : Status} {r : List Nat}
    (h : decStatus l = some (s, r)) : l = encStatus s ++ r := by
  match l with
  | [] => simp [decStatus] at h
  | c :: t =>
    simp only [decStatus] at h
    rw [dstep_eq_some] at h
    obtain ⟨m, r2, d1, h⟩ := h
    simp only [Option.some.injEq, Prod.mk.injEq] at h
    obtain ⟨h1, h2⟩ := h
    subst h1; subst h2
    rw [decStr_sound d1]
    simp [encStatus]

theorem decJobStats_enc (s : CompactionJobStats) (r : List Nat) :
    decJobStats (encJobStats s ++ r) = some (s, r) := rfl

theorem decJobStats_sound {l : List Nat} {s : CompactionJobStats} {r : List Nat}
    (h : decJobStats l = some (s, r)) : l = encJobStats s ++ r := by
  match l with
  | [] | [_] | [_, _] | [_, _, _] => simp [decJobStats] at h
  | a :: b :: c :: d :: t =>
    simp only [decJobStats, Option.some.injEq, Prod.mk.injEq] at h
    obtain ⟨h1, h2⟩ := h
    subst h1; subst h2; rfl

theorem decCompactionStats_enc (s : CompactionStats) (r : List Nat) :
    decCompactionStats (encCompactionStats s ++ r) = some (s, r) := rfl

theorem decCompactionStats_sound {l : List Nat} {s : CompactionStats} {r : List Nat}
    (h : decCompactionStats l = some (s, r)) : l = encCompactionStats s ++ r := by
  match l with
  | [] | [_] => simp [decCompactionStats] at h
  | a :: b :: t =>
    simp only [decCompactionStats, Option.some.injEq, Prod.mk.injEq] at h
    obtain ⟨h1, h2⟩ := h
    subst h1; subst h2; rfl

theorem decStatsFull_enc (s : CompactionStatsFull) (r : List Nat) :
    decStatsFull (encStatsFull s ++ r) = some (s, r) := by
  simp only [encStatsFull, decStatsFull, List.append_assoc, decCompactionStats_enc,
    dstep_some]

theorem decStatsFull_enc_nil (s : CompactionStatsFull) :
    decStatsFull (encStatsFull s) = some (s, []) := by
  have := decStatsFull_enc s []
  rwa [List.append_nil] at this

theorem decStatsFull_sound {l : List Nat} {s : CompactionStatsFull} {r : List Nat}
    (h : decStatsFull l = some (s, r)) : l = encStatsFull s ++ r := by
  simp only [decStatsFull] at h
  rw [dstep_eq_some] at h
  obtain ⟨a, r1, d1, h⟩ := h
  rw [dstep_eq_some] at h
  obtain ⟨b, r2, d2, h⟩ := h
  simp only [Option.some.injEq, Prod.mk.injEq] at h
  obtain ⟨h1, h2⟩ := h
  subst h1; subst h2
  rw [decCompactionStats_sound d1, decCompactionStats_sound d2]
  simp [encStatsFull, List.append_assoc]

theorem decOutputFile_enc (f : CompactionServiceOutputFile) (r : List Nat) :
    decOutputFile (encOutputFile f ++ r) = some (f, r) := by
  simp only [encOutputFile, decOutputFile, List.append_assoc, decStr_enc, decNat_enc,
    decBool_enc, decUniqueId_enc, decTableProperties_enc, decTemperature_enc, dstep_some]

theorem decOutputFile_sound {l : List Nat} {f : CompactionServiceOutputFile}
    {r : List Nat} (h : decOutputFile l = some (f, r)) : l = encOutputFile f ++ r := by
  simp only [decOutputFile] at h
  rw [dstep_eq_some] at h
  obtain ⟨file_name, r1, d1, h⟩ := h
  rw [dstep_eq_some] at h
  obtain ⟨file_size, r2, d2, h⟩ := h
  rw [dstep_eq_some] at h
  obtain ⟨smallest_seqno, r3, d3, h⟩ := h
  rw [dstep_eq_some] at h
  obtain ⟨largest_seqno, r4, d4, h⟩ := h
  rw [dstep_eq_some] at h
  obtain ⟨smallest_internal_key, r5, d5, h⟩ := h
  rw [dstep_eq_some] at h
  obtain ⟨largest_internal_key, r6, d6, h⟩ := h
  rw [dstep_eq_some] at h
  obtain ⟨oldest_ancester_time, r7, d7, h⟩ := h
  rw [dstep_eq_some] at h
  obtain ⟨file_creation_time, r8, d8, h⟩ := h
  rw [dstep_eq_some] at h
  obtain ⟨epoch_number, r9, d9, h⟩ := h
  rw [dstep_eq_some] at h
  obtain ⟨file_checksum, r10, d10, h⟩ := h
  rw [dstep_eq_some] at h
  obtain ⟨file_checksum_func_name, r11, d11, h⟩ := h
  rw [dstep_eq_some] at h
  obtain ⟨paranoid_hash, r12, d12, h⟩ := h
  rw [dstep_eq_some] at h
  obtain ⟨marked_for_compaction, r13, d13, h⟩ := h
  rw [dstep_eq_some] at h
  obtain ⟨unique_id, r14, d14, h⟩ := h
  rw [dstep_eq_some] at h
  obtain ⟨table_properties, r15, d15, h⟩ := h
  rw [dstep_eq_some] at h
  obtain ⟨is_proximal_level_output, r16, d16, h⟩ := h
  rw [dstep_eq_some] at h
  obtain ⟨file_temperature, r17, d17, h⟩ := h
  simp only [Option.some.injEq, Prod.mk.injEq] at h
  obtain ⟨h1, h2⟩ := h
  subst h1; subst h2
  rw [decStr_sound d1, decNat_sound d2, decNat_sound d3, decNat_sound d4,
    decStr_sound d5, decStr_sound d6, decNat_sound d7, decNat_sound d8,
    decNat_sound d9, decStr_sound d10, decStr_sound d11, decNat_sound d12,
    decBool_sound d13, decUniqueId_sound d14, decTableProperties_sound d15,
    decBool_sound d16, decTemperature_sound d17]
  simp [encOutputFile, List.append_assoc]

theorem result_read_write (x : CompactionServiceResult) :
    CompactionServiceResult.Read x.Write = some x := by
  simp only [CompactionServiceResult.Write, CompactionServiceResult.Read,
    List.append_assoc, eq_self_iff_true, if_true, decStatus_enc,
    decList_enc decOutputFile_enc, decInt_enc, decStr_enc, decNat_enc, decJobStats_enc,
    decStatsFull_enc, decStatsFull_enc_nil, dstep_some]

theorem result_write_of_read {l : List Nat}
    {x : CompactionServiceResult} (h : CompactionServiceResult.Read l = some x) :
    l = x.Write := by
  match l with
  | [] => simp [CompactionServiceResult.Read] at h
  | v :: rest =>
    simp only [CompactionServiceResult.Read] at h
    split at h
    · next hv =>
      subst hv
      rw [dstep_eq_some] at h
      obtain ⟨status, r1, d1, h⟩ := h
      rw [dstep_eq_some] at h
      obtain ⟨output_files, r2, d2, h⟩ := h
      rw [dstep_eq_some] at h
      obtain ⟨output_level, r3, d3, h⟩ := h
      rw [dstep_eq_some] at h
      obtain ⟨output_path, r4, d4, h⟩ := h
      rw [dstep_eq_some] at h
      obtain ⟨bytes_read, r5, d5, h⟩ := h
      rw [dstep_eq_some] at h
      obtain ⟨bytes_written, r6, d6, h⟩ := h
      rw [dstep_eq_some] at h
      obtain ⟨stats, r7, d7, h⟩ := h
      rw [dstep_eq_some] at h
      obtain ⟨internal_stats, r8, d8, h⟩ := h
      match r8 with
      | [] =>
        simp only [Option.some.injEq] at h
        subst h
        rw [decStatus_sound d1, decList_sound (fun {l x r} => decOutputFile_sound) d2,
          decInt_sound d3, decStr_sound d4, decNat_sound d5, decNat_sound d6,
          decJobStats_sound d7, decStatsFull_sound d8]
        simp [CompactionServiceResult.Write, List.append_assoc]
      | _ :: _ => simp at h
    · simp at h

theorem groupInto_flatten (g : Nat) (hg : 1 ≤ g) :
    ∀ xs : List α, (groupInto g xs).flatten = xs := by
  induction g with
  | zero => omega
  | succ g ih =>
    intro xs
    match g with
    | 0 => simp [groupInto]
    | g + 1 =>
      simp only [groupInto, List.flatten_cons]
      rw [ih (by omega)]
      exact List.take_append_drop ..

theorem groupInto_length (g : Nat) (hg : 1 ≤ g) :
    ∀ xs : List α, (groupInto g xs).length = g := by
  induction g with
  | zero => omega
  | succ g ih =>
    intro xs
    match g with
    | 0 => simp [groupInto]
    | g + 1 =>
      simp only [groupInto, List.length_cons]
      rw [ih (by omega)]

/- ===== Partitioner lemmas ===== -/

theorem mem_insertKey {z x : Nat} : ∀ {l : List Nat}, z ∈ insertKey x l → z = x ∨ z ∈ l := by
  intro l
  induction l with
  | nil => intro h; simp [insertKey] at h; exact Or.inl h
  | cons y ys ih =>
    intro h
    simp only [insertKey] at h
    by_cases h1 : x < y
    · rw [if_pos h1] at h
      rcases List.mem_cons.mp h with h2 | h2
      · exact Or.inl h2
      · exact Or.inr h2
    · rw [if_neg h1] at h
      by_cases h2 : x = y
      · rw [if_pos h2] at h
        exact Or.inr h
      · rw [if_neg h2] at h
        rcases List.mem_cons.mp h with h3 | h3
        · exact Or.inr (List.mem_cons.mpr (Or.inl h3))
        · rcases ih h3 with h4 | h4
          · exact Or.inl h4
          · exact Or.inr (List.mem_cons.mpr (Or.inr h4))

theorem sorted_insertKey {x : Nat} :
    ∀ {l : List Nat}, l.Sorted (· < ·) → (insertKey x l).Sorted (· < ·) := by
  intro l
  induction l with
  | nil => intro _; simp [insertKey]
  | cons y ys ih =>
    intro hs
    obtain ⟨hy, hys⟩ := List.sorted_cons.mp hs
    simp only [insertKey]
    by_cases h1 : x < y
    · rw [if_pos h1]
      refine List.sorted_cons.mpr ⟨?_, hs⟩
      intro b hb
      rcases List.mem_cons.mp hb with h2 | h2
      · omega
      · have := hy b h2
        omega
    · rw [if_neg h1]
      by_cases h2 : x = y
      · rw [if_pos h2]
        exact hs
      · rw [if_neg h2]
        refine List.sorted_cons.mpr ⟨?_, ih hys⟩
        intro b hb
        rcases mem_insertKey hb with h3 | h3
        · omega
        · exact hy b h3

theorem sorted_sortedDedup (l : List Nat) : (sortedDedup l).Sorted (· < ·) := by
  induction l with
  | nil => simp [sortedDedup]
  | cons x xs ih => exact sorted_insertKey ih

theorem adjPairs_map_snd : ∀ l : List Nat, (adjPairs l).map Prod.snd = l.tail := by
  intro l
  induction l with
  | nil => rfl
  | cons a t ih =>
    match t with
    | [] => rfl
    | b :: t2 =>
      simp only [adjPairs, List.map_cons, List.tail_cons]
      rw [ih]
      rfl

theorem greedyPick_zero (szf : Nat → Nat → Nat) (target acc : Nat)
    (ivs : List (Nat × Nat)) : greedyPick szf target 0 acc ivs = [] := by
  match ivs with
  | [] => rfl
  | [_] => rfl
  | _ :: _ :: _ => rfl

theorem greedyPick_length_le (szf : Nat → Nat → Nat) (target : Nat) :
    ∀ (ivs : List (Nat × Nat)) (lim acc : Nat),
      (greedyPick szf target lim acc ivs).length ≤ lim := by
  intro ivs
  induction ivs with
  | nil => intro lim acc; simp [greedyPick]
  | cons iv rest ih =>
    intro lim acc
    match rest with
    | [] => simp [greedyPick]
    | iv2 :: rest2 =>
      match lim with
      | 0 => simp [greedyPick_zero]
      | lim + 1 =>
        simp only [greedyPick]
        by_cases hc : target ≤ acc + szf iv.1 iv.2
        · rw [if_pos hc]
          simp only [List.length_cons]
          have := ih lim 0
          omega
        · rw [if_neg hc]
          exact ih (lim + 1) (acc + szf iv.1 iv.2)

theorem greedyPick_sublist (szf : Nat → Nat → Nat) (target : Nat) :
    ∀ (ivs : List (Nat × Nat)) (lim acc : Nat),
      (greedyPick szf target lim acc ivs).Sublist ((ivs.map Prod.snd).dropLast) := by
  intro ivs
  induction ivs with
  | nil => intro lim acc; simp [greedyPick]
  | cons iv rest ih =>
    intro lim acc
    match rest with
    | [] => simp [greedyPick]
    | iv2 :: rest2 =>
      have hdl : ((iv :: iv2 :: rest2).map Prod.snd).dropLast
          = iv.2 :: ((iv2 :: rest2).map Prod.snd).dropLast := by
        simp [List.dropLast]
      match lim with
      | 0 =>
        rw [greedyPick_zero]
        exact List.nil_sublist _
      | lim + 1 =>
        simp only [greedyPick]
        rw [hdl]
        by_cases hc : target ≤ acc + szf iv.1 iv.2
        · rw [if_pos hc]
          exact List.Sublist.cons₂ _ (ih lim 0)
        · rw [if_neg hc]
          exact List.Sublist.cons _ (ih (lim + 1) (acc + szf iv.1 iv.2))

theorem getLast?_mem_own : ∀ (l : List Nat) (a : Nat), l.getLast? = some a → a ∈ l := by
  intro l
  induction l with
  | nil => intro a h; simp at h
  | cons x t ih =>
    intro a h
    match t with
    | [] =>
      simp only [List.getLast?_singleton, Option.some.injEq] at h
      subst h
      exact List.mem_singleton_self x
    | y :: t2 =>
      rw [List.getLast?_cons_cons] at h
      exact List.mem_cons.mpr (Or.inr (ih a h))

theorem sorted_lt_getLast :
    ∀ (l : List Nat), l.Sorted (· < ·) →
      ∀ b ∈ l.dropLast, ∀ hi, l.getLast? = some hi → b < hi := by
  intro l
  induction l with
  | nil => intro _ b hb; simp at hb
  | cons a t ih =>
    intro hs b hb hi hhi
    obtain ⟨ha, ht⟩ := List.sorted_cons.mp hs
    match t with
    | [] => simp at hb
    | c :: t2 =>
      rw [List.getLast?_cons_cons] at hhi
      have hb2 : b ∈ a :: (c :: t2).dropLast := by
        simpa [List.dropLast] using hb
      rcases List.mem_cons.mp hb2 with h1 | h1
      · subst h1
        exact ha hi (getLast?_mem_own _ hi hhi)
      · exact ih ht b h1 hi hhi

theorem inducedRanges_mem_bounds :
    ∀ (bs : List Nat) (lo hi : Nat), bs.Sorted (· < ·) →
      (∀ b ∈ bs, lo ≤ b ∧ b ≤ hi) →
      ∀ p ∈ inducedRanges lo hi bs, lo ≤ p.1 ∧ p.2 ≤ hi := by
  intro bs
  induction bs with
  | nil =>
    intro lo hi _ _ p hp
    simp only [inducedRanges, List.mem_singleton] at hp
    subst hp
    exact ⟨Nat.le_refl lo, Nat.le_refl hi⟩
  | cons b bs ih =>
    intro lo hi hs hb p hp
    obtain ⟨hbb, hbs⟩ := List.sorted_cons.mp hs
    obtain ⟨hlob, hbhi⟩ := hb b (List.mem_cons_self b bs)
    simp only [inducedRanges, List.mem_cons] at hp
    rcases hp with h1 | h1
    · subst h1
      exact ⟨Nat.le_refl lo, hbhi⟩
    · have hrec := ih b hi hbs (fun b2 hb2 =>
        ⟨Nat.le_of_lt (hbb b2 hb2), (hb b2 (List.mem_cons.mpr (Or.inr hb2))).2⟩) p h1
      exact ⟨Nat.le_trans hlob hrec.1, hrec.2⟩

theorem inducedRanges_cover :
    ∀ (bs : List Nat) (lo hi : Nat), bs.Sorted (· < ·) →
      (∀ b ∈ bs, lo ≤ b ∧ b ≤ hi) →
      ∀ k, lo ≤ k → k < hi →
        ∃! p, p ∈ inducedRanges lo hi bs ∧ p.1 ≤ k ∧ k < p.2 := by
  intro bs
  induction bs with
  | nil =>
    intro lo hi _ _ k hk1 hk2
    refine ⟨(lo, hi), ⟨List.mem_singleton_self _, hk1, hk2⟩, ?_⟩
    intro q hq
    simp only [inducedRanges, List.mem_singleton] at hq
    exact hq.1
  | cons b bs ih =>
    intro lo hi hs hb k hk1 hk2
    obtain ⟨hbb, hbs⟩ := List.sorted_cons.mp hs
    have hbounds : ∀ b2 ∈ bs, b ≤ b2 ∧ b2 ≤ hi := fun b2 hb2 =>
      ⟨Nat.le_of_lt (hbb b2 hb2), (hb b2 (List.mem_cons.mpr (Or.inr hb2))).2⟩
    by_cases hkb : k < b
    · refine ⟨(lo, b), ⟨List.mem_cons_self _ _, hk1, hkb⟩, ?_⟩
      intro q hq
      obtain ⟨hqmem, hq1, hq2⟩ := hq
      simp only [inducedRanges, List.mem_cons] at hqmem
      rcases hqmem with h1 | h1
      · exact h1
      · have := (inducedRanges_mem_bounds bs b hi hbs hbounds q h1).1
        omega
    · have hbk : b ≤ k := by omega
      obtain ⟨p, ⟨hpmem, hp1, hp2⟩, hpuniq⟩ := ih b hi hbs hbounds k hbk hk2
      refine ⟨p, ⟨List.mem_cons.mpr (Or.inr hpmem), hp1, hp2⟩, ?_⟩
      intro q hq
      obtain ⟨hqmem, hq1, hq2⟩ := hq
      simp only [inducedRanges, List.mem_cons] at hqmem
      rcases hqmem with h1 | h1
      · subst h1
        simp only at hq2
        omega
      · exact hpuniq q ⟨h1, hq1, hq2⟩

theorem inducedRanges_head_fst :
    ∀ (bs : List Nat) (lo hi : Nat), ∃ y, (inducedRanges lo hi bs).head? = some (lo, y) := by
  intro bs lo hi
  match bs with
  | [] => exact ⟨hi, rfl⟩
  | b :: bs2 => exact ⟨b, rfl⟩

theorem inducedRanges_chain :
    ∀ (bs : List Nat) (lo hi : Nat),
      List.Chain' (fun p q : Nat × Nat => p.2 = q.1) (inducedRanges lo hi bs) := by
  intro bs
  induction bs with
  | nil => intro lo hi; simp [inducedRanges]
  | cons b bs ih =>
    intro lo hi
    simp only [inducedRanges]
    rw [List.chain'_cons']
    constructor
    · intro q hq
      obtain ⟨y, hy⟩ := inducedRanges_head_fst bs b hi
      rw [hy] at hq
      simp only [Option.mem_def, Option.some.injEq] at hq
      subst hq
      rfl
    · exact ih b hi

/- ===== Executor lemmas ===== -/

theorem stepRec_status (thresh : Nat) (r : DRec) (s : SubRun) :
    (stepRec thresh r s).status = s.status := by
  simp only [stepRec]
  split
  · rfl
  · split <;> rfl

theorem execGo_not_succeeded_of_cancel (thresh cancelAt : Nat) (failAt : Option Nat) :
    ∀ (recs : List DRec) (i : Nat), cancelAt < i + recs.length → i ≤ cancelAt →
      (execGo thresh cancelAt failAt i recs).status ≠ .succeeded := by
  intro recs
  induction recs with
  | nil =>
    intro i h1 h2
    simp only [List.length_nil] at h1
    omega
  | cons r rest ih =>
    intro i h1 h2
    by_cases hc : cancelAt ≤ i
    · simp [execGo, hc]
    · by_cases hf : failAt = some i
      · simp [execGo, hc, hf]
      · simp only [execGo, if_neg hc, if_neg hf, stepRec_status]
        exact ih (i + 1) (by simp at h1 ⊢; omega) (by omega)

theorem execGo_not_succeeded_of_fail (thresh cancelAt : Nat) (failAt : Option Nat) :
    ∀ (recs : List DRec) (i j : Nat), failAt = some j → i ≤ j → j < i + recs.length →
      (execGo thresh cancelAt failAt i recs).status ≠ .succeeded := by
  intro recs
  induction recs with
  | nil =>
    intro i j _ h1 h2
    simp only [List.length_nil] at h2
    omega
  | cons r rest ih =>
    intro i j hj h1 h2
    by_cases hc : cancelAt ≤ i
    · simp [execGo, hc]
    · by_cases hf : failAt = some i
      · simp [execGo, hc, hf]
      · have hne : j ≠ i := by
          intro he
          subst he
          exact hf hj
        simp only [execGo, if_neg hc, if_neg hf, stepRec_status]
        exact ih (i + 1) j hj (by omega) (by simp at h2 ⊢; omega)

theorem execGo_counts (thresh cancelAt : Nat) (failAt : Option Nat) :
    ∀ (recs : List DRec) (i : Nat),
      (execGo thresh cancelAt failAt i recs).status = .succeeded →
      (execGo thresh cancelAt failAt i recs).primary.length
          + (execGo thresh cancelAt failAt i recs).proximal.length
          = (recs.filter (fun r => !r.drop)).length
        ∧ (execGo thresh cancelAt failAt i recs).dropped
          = (recs.filter (fun r => r.drop)).length := by
  intro recs
  induction recs with
  | nil => intro i _; simp [execGo]
  | cons r rest ih =>
    intro i h
    by_cases hc : cancelAt ≤ i
    · simp [execGo, hc] at h
    · by_cases hf : failAt = some i
      · simp [execGo, hc, hf] at h
      · simp only [execGo, if_neg hc, if_neg hf] at h ⊢
        rw [stepRec_status] at h
        obtain ⟨ho, hd⟩ := ih (i + 1) h
        by_cases hdrop : r.drop
        · simp only [stepRec, if_pos hdrop, List.filter_cons, hdrop]
          simp only [Bool.not_true, Bool.false_eq_true, if_false, if_true]
          constructor
          · exact ho
          · simp only [List.length_cons]
            omega
        · have hdrop2 : r.drop = false := by
            cases hb : r.drop
            · rfl
            · exact absurd hb hdrop
          simp only [stepRec, hdrop2, Bool.false_eq_true, if_false, List.filter_cons,
            Bool.not_false, if_true]
          by_cases hs : thresh < r.seqno
          · rw [if_pos hs]
            simp only [List.length_cons]
            constructor
            · omega
            · exact hd
          · rw [if_neg hs]
            simp only [List.length_cons]
            constructor
            · omega
            · exact hd

theorem execGo_primary_seqno (thresh cancelAt : Nat) (failAt : Option Nat) :
    ∀ (recs : List DRec) (i : Nat) (r : DRec),
      r ∈ (execGo thresh cancelAt failAt i recs).primary → r.seqno ≤ thresh := by
  intro recs
  induction recs with
  | nil => intro i r h; simp [execGo] at h
  | cons r0 rest ih =>
    intro i r h
    by_cases hc : cancelAt ≤ i
    · simp [execGo, hc] at h
    · by_cases hf : failAt = some i
      · simp [execGo, hc, hf] at h
      · simp only [execGo, if_neg hc, if_neg hf, stepRec] at h
        split at h
        · exact ih (i + 1) r h
        · split at h
          · exact ih (i + 1) r h
          · next hs =>
            simp only [List.mem_cons] at h
            rcases h with h1 | h1
            · subst h1
              omega
            · exact ih (i + 1) r h1

theorem execGo_proximal_seqno (thresh cancelAt : Nat) (failAt : Option Nat) :
    ∀ (recs : List DRec) (i : Nat) (r : DRec),
      r ∈ (execGo thresh cancelAt failAt i recs).proximal → thresh < r.seqno := by
  intro recs
  induction recs with
  | nil => intro i r h; simp [execGo] at h
  | cons r0 rest ih =>
    intro i r h
    by_cases hc : cancelAt ≤ i
    · simp [execGo, hc] at h
    · by_cases hf : failAt = some i
      · simp [execGo, hc, hf] at h
      · simp only [execGo, if_neg hc, if_neg hf, stepRec] at h
        split at h
        · exact ih (i + 1) r h
        · split at h
          · next hs =>
            simp only [List.mem_cons] at h
            rcases h with h1 | h1
            · subst h1
              omega
            · exact ih (i + 1) r h1
          · exact ih (i + 1) r h

theorem execGo_mem_proximal (thresh cancelAt : Nat) (failAt : Option Nat) :
    ∀ (recs : List DRec) (i : Nat) (r : DRec),
      (execGo thresh cancelAt failAt i recs).status = .succeeded →
      r ∈ recs → r.drop = false → thresh < r.seqno →
      r ∈ (execGo thresh cancelAt failAt i recs).proximal := by
  intro recs
  induction recs with
  | nil => intro i r _ h; simp at h
  | cons r0 rest ih =>
    intro i r hst hmem hdrop hseq
    by_cases hc : cancelAt ≤ i
    · simp [execGo, hc] at hst
    · by_cases hf : failAt = some i
      · simp [execGo, hc, hf] at hst
      · simp only [execGo, if_neg hc, if_neg hf] at hst ⊢
        rw [stepRec_status] at hst
        simp only [List.mem_cons] at hmem
        rcases hmem with h1 | h1
        · subst h1
          simp only [stepRec, hdrop, Bool.false_eq_true, if_false, if_pos hseq]
          exact List.mem_cons_self ..
        · have hrec := ih (i + 1) r hst h1 hdrop hseq
          simp only [stepRec]
          split
          · exact hrec
          · split
            · exact List.mem_cons.mpr (Or.inr hrec)
            · exact hrec

theorem runStatusOk_eq_false (thresh : Nat) (subs : List SubJobSpec) (sj : SubJobSpec)
    (hmem : sj ∈ subs) (hst : (execSubJob thresh sj).status ≠ .succeeded) :
    runStatusOk thresh subs = false := by
  cases hall : runStatusOk thresh subs with
  | false => rfl
  | true =>
    exfalso
    simp only [runStatusOk, List.all_eq_true] at hall
    have h2 := hall sj hmem
    cases hs : (execSubJob thresh sj).status with
    | succeeded => exact hst hs
    | failed => rw [hs] at h2; simp at h2
    | canceled => rw [hs] at h2; simp at h2

theorem filter_split_length (recs : List DRec) :
    (recs.filter (fun r => !r.drop)).length + (recs.filter (fun r => r.drop)).length
      = recs.length := by
  induction recs with
  | nil => rfl
  | cons r rest ih =>
    by_cases hd : r.drop
    · simp only [List.filter_cons, hd, Bool.not_true, Bool.false_eq_true, if_false,
        if_true, List.length_cons]
      omega
    · have hd2 : r.drop = false := by
        cases hb : r.drop
        · rfl
        · exact absurd hb hd
      simp only [List.filter_cons, hd2, Bool.not_false, Bool.false_eq_true, if_false,
        if_true, List.length_cons]
      omega

theorem aggregateJobStats_sum (thresh : Nat) :
    ∀ subs : List SubJobSpec,
      (aggregateJobStats thresh subs).num_input_records
          = (subs.map (fun sj => (execSubJob thresh sj).primary.length
              + (execSubJob thresh sj).proximal.length
              + (execSubJob thresh sj).dropped)).sum
        ∧ (aggregateJobStats thresh subs).num_output_records
          = (subs.map (fun sj => (execSubJob thresh sj).primary.length
              + (execSubJob thresh sj).proximal.length)).sum
        ∧ (aggregateJobStats thresh subs).num_output_files
          = (subs.map (fun sj => (outputFilesOf sj (execSubJob thresh sj)).length)).sum
        ∧ (aggregateJobStats thresh subs).num_dropped_records
          = (subs.map (fun sj => (execSubJob thresh sj).dropped)).sum := by
  intro subs
  induction subs with
  | nil => simp [aggregateJobStats]
  | cons sj rest ih =>
    obtain ⟨h1, h2, h3, h4⟩ := ih
    simp only [aggregateJobStats, List.map_cons, List.sum_cons]
    refine ⟨?_, ?_, ?_, ?_⟩
    · rw [h1]
    · rw [h2]
    · rw [h3]
    · rw [h4]

theorem aggregateJobStats_merge_stream (thresh : Nat) :
    ∀ subs : List SubJobSpec,
      (∀ sj ∈ subs, (execSubJob thresh sj).status = .succeeded) →
      (aggregateJobStats thresh subs).num_dropped_records = mergeStreamDropped subs
        ∧ (aggregateJobStats thresh subs).num_output_records = mergeStreamOutput subs
        ∧ (aggregateJobStats thresh subs).num_input_records = mergeStreamInput subs := by
  intro subs
  induction subs with
  | nil =>
    intro _
    simp [aggregateJobStats, mergeStreamDropped, mergeStreamOutput, mergeStreamInput]
  | cons sj rest ih =>
    intro hall
    have hsj := hall sj (List.mem_cons_self ..)
    obtain ⟨hd, ho, hi⟩ := ih (fun s hs => hall s (List.mem_cons.mpr (Or.inr hs)))
    obtain ⟨ho2, hd2⟩ := execGo_counts thresh sj.cancelAt sj.failAt sj.recs 0 hsj
    have hsplit := filter_split_length sj.recs
    simp only [mergeStreamDropped, mergeStreamOutput, mergeStreamInput,
      List.map_cons, List.flatten_cons, List.filter_append, List.length_append] at hd ho hi ⊢
    simp only [aggregateJobStats, execSubJob]
    refine ⟨?_, ?_, ?_⟩
    · rw [hd]
      omega
    · rw [ho]
      omega
    · rw [hi]
      omega

/- ===== Claim theorems ===== -/

/-- Claim C1: for every valid `CompactionServiceInput` value and every
valid `CompactionServiceResult` value, decoding the wire string
produced by encoding (`Write` then `Read`) reproduces the original
value field-for-field. -/
theorem claim_C1_roundtrip :
    (∀ x : CompactionServiceInput, CompactionServiceInput.Read x.Write = some x) ∧
    (∀ y : CompactionServiceResult, CompactionServiceResult.Read y.Write = some y) :=
  ⟨input_read_write, result_read_write⟩

/-- Claim C9: decoding a wire string with an unknown or mismatched
descriptor version, or any string that is not the exact encoding of
some value, fails with a decode error (`none`) for both
`CompactionServiceInput::Read` and `CompactionServiceResult::Read`;
no silently defaulted or partially populated object is produced. -/
theorem claim_C9_decode_failure :
    (∀ v rest, v ≠ inputFormatVersion → CompactionServiceInput.Read (v :: rest) = none) ∧
    (∀ v rest, v ≠ resultFormatVersion → CompactionServiceResult.Read (v :: rest) = none) ∧
    CompactionServiceInput.Read [] = none ∧
    CompactionServiceResult.Read [] = none ∧
    (∀ l x, CompactionServiceInput.Read l = some x → l = x.Write) ∧
    (∀ l y, CompactionServiceResult.Read l = some y → l = y.Write) := by
  refine ⟨?_, ?_, rfl, rfl, ?_, ?_⟩
  · intro v rest hv
    simp [CompactionServiceInput.Read, hv]
  · intro v rest hv
    simp [CompactionServiceResult.Read, hv]
  · exact fun l x h => input_write_of_read h
  · exact fun l y h => result_write_of_read h

/-- Witness for C9: a concrete mismatched version is rejected by both
decoders. -/
theorem claim_C9_witness :
    CompactionServiceInput.Read (7 :: [3, 3]) = none ∧
    CompactionServiceResult.Read (9 :: []) = none :=
  ⟨claim_C9_decode_failure.1 7 [3, 3] (by decide),
    claim_C9_decode_failure.2.1 9 [] (by decide)⟩

/-- Claim C10: a default-constructed `CompactionServiceInput` has
`has_begin = false` and `has_end = false` (the bound keys themselves
stay empty, so absence of a bound is carried by the flags, not by a
sentinel key), `output_level = 0` and `options_file_number = 0`. -/
theorem claim_C10_default_input :
    CompactionServiceInput.default.has_begin = false ∧
    CompactionServiceInput.default.has_end = false ∧
    CompactionServiceInput.default.output_level = 0 ∧
    CompactionServiceInput.default.options_file_number = 0 ∧
    CompactionServiceInput.default.begin = [] ∧
    CompactionServiceInput.default.end_ = [] :=
  ⟨rfl, rfl, rfl, rfl, rfl, rfl⟩

/-- Claim C2: when `Install` succeeds, the single atomic catalog edit
has been applied, so every output file is in the catalog and every
input file (not re-added as an output) is gone from it, the input
files' reservation was released exactly once, and
`*compaction_released` is true; `*compaction_released` is true exactly
when the edit was applied, and on error the catalog is untouched and
nothing was released. -/
theorem claim_C2_install_atomic (jobOk applyOk : Bool) (catalog inputs outs : List Nat) :
    ((Install jobOk applyOk catalog inputs outs).ok = true →
      (∀ o ∈ outs, o ∈ (Install jobOk applyOk catalog inputs outs).catalog) ∧
      (∀ i ∈ inputs, i ∉ outs → i ∉ (Install jobOk applyOk catalog inputs outs).catalog) ∧
      (Install jobOk applyOk catalog inputs outs).catalog
        = applyVersionEdit catalog inputs outs ∧
      (Install jobOk applyOk catalog inputs outs).releaseCount = 1) ∧
    ((Install jobOk applyOk catalog inputs outs).compaction_released = true ↔
      (Install jobOk applyOk catalog inputs outs).ok = true) ∧
    ((Install jobOk applyOk catalog inputs outs).ok = false →
      (Install jobOk applyOk catalog inputs outs).catalog = catalog ∧
      (Install jobOk applyOk catalog inputs outs).compaction_released = false ∧
      (Install jobOk applyOk catalog inputs outs).releaseCount = 0) := by
  by_cases h : (jobOk && applyOk) = true
  · simp only [Install, if_pos h]
    refine ⟨?_, by simp, by simp⟩
    intro _
    refine ⟨?_, ?_, by simp, by simp⟩
    · intro o ho
      simp [applyVersionEdit, ho]
    · intro i hi hnot
      simp only [applyVersionEdit, List.mem_append, List.mem_filter]
      intro hmem
      rcases hmem with ⟨hlive, hdec⟩ | hout
      · simp only [decide_eq_true_eq] at hdec
        exact hdec hi
      · exact hnot hout
  · simp only [Install, if_neg h]
    refine ⟨by intro hok; simp at hok, by simp, fun _ => ⟨by simp, by simp, by simp⟩⟩

/-- Witness for C2: a concrete successful install puts the output file
in the catalog and removes the input file. -/
theorem claim_C2_witness :
    5 ∈ (Install true true [1, 2] [1] [5]).catalog ∧
    1 ∉ (Install true true [1, 2] [1] [5]).catalog :=
  ⟨((claim_C2_install_atomic true true [1, 2] [1] [5]).1 rfl).1 5 (by decide),
    ((claim_C2_install_atomic true true [1, 2] [1] [5]).1 rfl).2.1 1 (by decide) (by decide)⟩

/-- Counterexample for C3 as stated: with one input file (two
candidate keys, hence a single inter-candidate interval) and target
sub-job count `K = 3`, the partitioner produces 0 boundaries, not
`K - 1 = 2`. -/
theorem claim_C3_counterexample :
    ¬ (GenSubcompactionBoundaries (fun a b => b - a) [⟨0, 10⟩] 3).length = 3 - 1 := by
  decide

/-- Claim C3 (amended): the boundary partitioner produces at most
`K - 1` boundary keys (none when `K = 1`), strictly increasing, each
strictly inside the compaction's candidate-key span, and the
sub-ranges they induce tile the span exactly: every key of the span
lies in exactly one induced range, every induced range stays inside
the span, and consecutive ranges share their endpoint (no gap, no
overlap). -/
theorem claim_C3_boundaries (szf : Nat → Nat → Nat) (files : List InputFile) (K : Nat)
    (hK : 1 ≤ K) :
    (GenSubcompactionBoundaries szf files K).length ≤ K - 1 ∧
    (GenSubcompactionBoundaries szf files K).Sorted (· < ·) ∧
    (K = 1 → GenSubcompactionBoundaries szf files K = []) ∧
    (∀ lo hi, (candidateKeys files).head? = some lo →
      (candidateKeys files).getLast? = some hi →
      (∀ b ∈ GenSubcompactionBoundaries szf files K, lo < b ∧ b < hi) ∧
      (∀ p ∈ inducedRanges lo hi (GenSubcompactionBoundaries szf files K),
        lo ≤ p.1 ∧ p.2 ≤ hi) ∧
      List.Chain' (fun p q : Nat × Nat => p.2 = q.1)
        (inducedRanges lo hi (GenSubcompactionBoundaries szf files K)) ∧
      (∀ k, lo ≤ k → k < hi →
        ∃! p, p ∈ inducedRanges lo hi (GenSubcompactionBoundaries szf files K) ∧
          p.1 ≤ k ∧ k < p.2)) := by
  have hsubdl : (GenSubcompactionBoundaries szf files K).Sublist
      ((candidateKeys files).tail.dropLast) := by
    have h := greedyPick_sublist szf
      ((((adjPairs (candidateKeys files)).map (fun p => szf p.1 p.2)).sum) / K)
      (adjPairs (candidateKeys files)) (K - 1) 0
    rw [adjPairs_map_snd] at h
    exact h
  have hsorted_c : (candidateKeys files).Sorted (· < ·) := sorted_sortedDedup _
  have hsub_c : (GenSubcompactionBoundaries szf files K).Sublist (candidateKeys files) :=
    hsubdl.trans ((List.dropLast_sublist _).trans (List.tail_sublist _))
  have hb_sorted : (GenSubcompactionBoundaries szf files K).Sorted (· < ·) :=
    hsorted_c.sublist hsub_c
  refine ⟨?_, hb_sorted, ?_, ?_⟩
  · exact greedyPick_length_le szf _ (adjPairs (candidateKeys files)) (K - 1) 0
  · intro h1
    subst h1
    exact greedyPick_zero szf _ 0 (adjPairs (candidateKeys files))
  · intro lo hi hlo hhi
    have hbounds : ∀ b ∈ GenSubcompactionBoundaries szf files K, lo < b ∧ b < hi := by
      intro b hb
      have hmem : b ∈ (candidateKeys files).tail.dropLast := hsubdl.subset hb
      match hc : candidateKeys files with
      | [] =>
        rw [hc] at hlo
        simp at hlo
      | a :: t =>
        rw [hc] at hlo hhi hsorted_c
        rw [hc] at hmem
        simp only [List.head?_cons, Option.some.injEq] at hlo
        subst hlo
        simp only [List.tail_cons] at hmem
        obtain ⟨hat, hts⟩ := List.sorted_cons.mp hsorted_c
        constructor
        · exact hat b ((List.dropLast_sublist t).subset hmem)
        · match t with
          | [] => simp at hmem
          | c :: t2 =>
            rw [List.getLast?_cons_cons] at hhi
            exact sorted_lt_getLast (c :: t2) hts b hmem hi hhi
    have hweak : ∀ b ∈ GenSubcompactionBoundaries szf files K, lo ≤ b ∧ b ≤ hi :=
      fun b hb => ⟨Nat.le_of_lt (hbounds b hb).1, Nat.le_of_lt (hbounds b hb).2⟩
    refine ⟨hbounds, ?_, ?_, ?_⟩
    · exact inducedRanges_mem_bounds _ lo hi hb_sorted hweak
    · exact inducedRanges_chain _ lo hi
    · exact fun k hk1 hk2 => inducedRanges_cover _ lo hi hb_sorted hweak k hk1 hk2

/-- Witness for C3 (amended): two input files meeting at key 5 with a
size estimator `b - a` and `K = 2` give one boundary, and key 7 lies
in exactly one induced range of the span `[0, 10)`. -/
theorem claim_C3_witness :
    (GenSubcompactionBoundaries (fun a b => b - a) [⟨0, 5⟩, ⟨5, 10⟩] 2).length ≤ 1 ∧
    (∃! p, p ∈ inducedRanges 0 10
        (GenSubcompactionBoundaries (fun a b => b - a) [⟨0, 5⟩, ⟨5, 10⟩] 2) ∧
      p.1 ≤ 7 ∧ 7 < p.2) :=
  have h := claim_C3_boundaries (fun a b => b - a) [⟨0, 5⟩, ⟨5, 10⟩] 2 (by decide)
  ⟨h.1, (h.2.2.2 0 10 (by decide) (by decide)).2.2.2 7 (by decide) (by decide)⟩

/-- Claim C4: never more sub-jobs than granted slots — with at least
one granted slot, the launched range list never exceeds the grant;
when the planner produced more ranges than the grant, adjacent ranges
are merged into exactly `granted` contiguous groups whose
concatenation is the original ordered range list; when the planner's
count already fits, the ranges run unchanged (the grant is never
raised). -/
theorem claim_C4_merge_down (granted : Nat) (ranges : List KeyRange)
    (hg : 1 ≤ granted) :
    (launchSubJobRanges granted ranges).length ≤ granted ∧
    (granted < ranges.length →
      launchSubJobRanges granted ranges = (groupInto granted ranges).map mergeGroup ∧
      (groupInto granted ranges).flatten = ranges ∧
      (launchSubJobRanges granted ranges).length = granted) ∧
    (ranges.length ≤ granted → launchSubJobRanges granted ranges = ranges) := by
  by_cases h : ranges.length ≤ granted
  · simp only [launchSubJobRanges, if_pos h]
    exact ⟨h, fun hlt => absurd h (by omega), fun _ => trivial⟩
  · simp only [launchSubJobRanges, if_neg h]
    have hlen : ((groupInto granted ranges).map mergeGroup).length = granted := by
      rw [List.length_map, groupInto_length granted hg]
    exact ⟨Nat.le_of_eq hlen, fun _ => ⟨trivial, groupInto_flatten granted hg ranges, hlen⟩,
      fun hle => absurd hle h⟩

/-- Witness for C4: the spec's boundary-merge scenario — 8 planner
ranges and a grant of 3 slots run as exactly 3 merged contiguous
groups covering the original ranges in order. -/
theorem claim_C4_witness :
    (launchSubJobRanges 3
      [(0, 1), (1, 2), (2, 3), (3, 4), (4, 5), (5, 6), (6, 7), (7, 8)]).length = 3 ∧
    (groupInto 3
      [(0, 1), (1, 2), (2, 3), (3, 4), (4, 5), (5, 6), (6, 7), (7, 8)]).flatten
      = [(0, 1), (1, 2), (2, 3), (3, 4), (4, 5), (5, 6), (6, 7), (7, 8)] :=
  have h := claim_C4_merge_down 3
    [(0, 1), (1, 2), (2, 3), (3, 4), (4, 5), (5, 6), (6, 7), (7, 8)] (by decide)
  ⟨(h.2.1 (by decide)).2.2, (h.2.1 (by decide)).2.1⟩

/-- Claim C5: if the cancellation flag is observed by any sub-job
before it finishes its records, or any sub-job hits an IO failure,
then `Run` reports non-success, `Install` is never applied — the
catalog is unchanged, nothing is released, `*compaction_released`
stays false — and no output file of any sub-job (completed ones
included) is referenced by the catalog, output file numbers being
fresh. -/
theorem claim_C5_cancellation (thresh : Nat) (subs : List SubJobSpec) (applyOk : Bool)
    (catalog inputs : List Nat)
    (h : ∃ sj ∈ subs, sj.cancelAt < sj.recs.length ∨
      ∃ j, sj.failAt = some j ∧ j < sj.recs.length) :
    runStatusOk thresh subs = false ∧
    (runAndInstall thresh subs applyOk catalog inputs).ok = false ∧
    (runAndInstall thresh subs applyOk catalog inputs).catalog = catalog ∧
    (runAndInstall thresh subs applyOk catalog inputs).compaction_released = false ∧
    (runAndInstall thresh subs applyOk catalog inputs).releaseCount = 0 ∧
    (∀ f ∈ jobOutputFiles thresh subs, f ∉ catalog →
      f ∉ (runAndInstall thresh subs applyOk catalog inputs).catalog) := by
  obtain ⟨sj, hmem, hcase⟩ := h
  have hst : (execSubJob thresh sj).status ≠ .succeeded := by
    rcases hcase with h1 | ⟨j, hj, hjlen⟩
    · exact execGo_not_succeeded_of_cancel thresh sj.cancelAt sj.failAt sj.recs 0
        (by omega) (Nat.zero_le _)
    · exact execGo_not_succeeded_of_fail thresh sj.cancelAt sj.failAt sj.recs 0 j hj
        (Nat.zero_le _) (by omega)
  have hfalse := runStatusOk_eq_false thresh subs sj hmem hst
  have hcat : (runAndInstall thresh subs applyOk catalog inputs).catalog = catalog := by
    simp [runAndInstall, Install, hfalse]
  refine ⟨hfalse, by simp [runAndInstall, Install, hfalse], hcat,
    by simp [runAndInstall, Install, hfalse], by simp [runAndInstall, Install, hfalse], ?_⟩
  intro f _ hnotin
  rw [hcat]
  exact hnotin

/-- Witness for C5: one sub-job that observes the cancellation flag
before its only record leaves the catalog untouched and `Run`
unsuccessful. -/
theorem claim_C5_witness :
    runStatusOk 0 [⟨0, none, [⟨1, 1, false⟩], 10, 11⟩] = false ∧
    (runAndInstall 0 [⟨0, none, [⟨1, 1, false⟩], 10, 11⟩] true [2] [2]).catalog = [2] :=
  have h := claim_C5_cancellation 0 [⟨0, none, [⟨1, 1, false⟩], 10, 11⟩] true [2] [2]
    ⟨⟨0, none, [⟨1, 1, false⟩], 10, 11⟩, by decide, Or.inl (by decide)⟩
  ⟨h.1, h.2.2.1⟩

/-- Claim C6: for a completed job (every sub-job succeeded), every
summation-derived job-wide counter equals the sum of the per-sub-job
values, and the directly recorded counters match the totals computed
independently from the merge stream — the dropped-record, output-record
and input-record totals of the concatenated record streams. -/
theorem claim_C6_stats_aggregation (thresh : Nat) (subs : List SubJobSpec)
    (h : ∀ sj ∈ subs, (execSubJob thresh sj).status = .succeeded) :
    (aggregateJobStats thresh subs).num_input_records
        = (subs.map (fun sj => (execSubJob thresh sj).primary.length
            + (execSubJob thresh sj).proximal.length
            + (execSubJob thresh sj).dropped)).sum ∧
    (aggregateJobStats thresh subs).num_output_records
        = (subs.map (fun sj => (execSubJob thresh sj).primary.length
            + (execSubJob thresh sj).proximal.length)).sum ∧
    (aggregateJobStats thresh subs).num_output_files
        = (subs.map (fun sj => (outputFilesOf sj (execSubJob thresh sj)).length)).sum ∧
    (aggregateJobStats thresh subs).num_dropped_records
        = (subs.map (fun sj => (execSubJob thresh sj).dropped)).sum ∧
    (aggregateJobStats thresh subs).num_dropped_records = mergeStreamDropped subs ∧
    (aggregateJobStats thresh subs).num_output_records = mergeStreamOutput subs ∧
    (aggregateJobStats thresh subs).num_input_records = mergeStreamInput subs := by
  obtain ⟨s1, s2, s3, s4⟩ := aggregateJobStats_sum thresh subs
  obtain ⟨m1, m2, m3⟩ := aggregateJobStats_merge_stream thresh subs h
  exact ⟨s1, s2, s3, s4, m1, m2, m3⟩

/-- Witness for C6: a two-sub-job completed run whose aggregated
dropped counter equals the merge stream's independent total. -/
theorem claim_C6_witness :
    (aggregateJobStats 5 [⟨5, none, [⟨1, 3, false⟩, ⟨2, 9, true⟩], 10, 11⟩,
        ⟨5, none, [⟨3, 7, false⟩], 12, 13⟩]).num_dropped_records
      = mergeStreamDropped [⟨5, none, [⟨1, 3, false⟩, ⟨2, 9, true⟩], 10, 11⟩,
        ⟨5, none, [⟨3, 7, false⟩], 12, 13⟩] :=
  (claim_C6_stats_aggregation 5 [⟨5, none, [⟨1, 3, false⟩, ⟨2, 9, true⟩], 10, 11⟩,
    ⟨5, none, [⟨3, 7, false⟩], 12, 13⟩] (by decide)).2.2.2.2.1

/-- Claim C7: the job-wide stats are not reconstructible from the two
per-output-level accumulators — two completed jobs with identical
aggregated internal per-level stats differ in the job-wide
dropped-record counter (recorded directly during merge), so no
function of the per-level pair yields it. -/
theorem claim_C7_not_reconstructible :
    aggregateInternalStats 0 [⟨1, none, [⟨0, 0, true⟩], 10, 11⟩]
        = aggregateInternalStats 0 [] ∧
    (∀ sj ∈ [(⟨1, none, [⟨0, 0, true⟩], 10, 11⟩ : SubJobSpec)],
      (execSubJob 0 sj).status = .succeeded) ∧
    (aggregateJobStats 0 [⟨1, none, [⟨0, 0, true⟩], 10, 11⟩]).num_dropped_records = 1 ∧
    (aggregateJobStats 0 []).num_dropped_records = 0 := by
  decide

/-- Claim C8: in every sub-job, a record whose sequence number exceeds
`proximal_after_seqno_` is never in the primary accumulator; every
record of the proximal accumulator exceeds the threshold; and in a
succeeded sub-job every kept record above the threshold lands in the
proximal accumulator and not in the primary one. -/
theorem claim_C8_proximal_routing (thresh : Nat) (sj : SubJobSpec) :
    (∀ r ∈ (execSubJob thresh sj).primary, r.seqno ≤ thresh) ∧
    (∀ r ∈ (execSubJob thresh sj).proximal, thresh < r.seqno) ∧
    ((execSubJob thresh sj).status = .succeeded →
      ∀ r ∈ sj.recs, r.drop = false → thresh < r.seqno →
        r ∈ (execSubJob thresh sj).proximal ∧ r ∉ (execSubJob thresh sj).primary) := by
  refine ⟨?_, ?_, ?_⟩
  · exact fun r hr => execGo_primary_seqno thresh sj.cancelAt sj.failAt sj.recs 0 r hr
  · exact fun r hr => execGo_proximal_seqno thresh sj.cancelAt sj.failAt sj.recs 0 r hr
  · intro hst r hr hdrop hseq
    refine ⟨execGo_mem_proximal thresh sj.cancelAt sj.failAt sj.recs 0 r hst hr hdrop
      hseq, ?_⟩
    intro hmem
    have := execGo_primary_seqno thresh sj.cancelAt sj.failAt sj.recs 0 r hmem
    omega

/-- Witness for C8: a kept record with sequence number 9 above the
threshold 5 lands in the proximal accumulator only. -/
theorem claim_C8_witness :
    (⟨1, 9, false⟩ : DRec) ∈ (execSubJob 5 ⟨5, none, [⟨1, 9, false⟩], 10, 11⟩).proximal ∧
    (⟨1, 9, false⟩ : DRec) ∉ (execSubJob 5 ⟨5, none, [⟨1, 9, false⟩], 10, 11⟩).primary :=
  (claim_C8_proximal_routing 5 ⟨5, none, [⟨1, 9, false⟩], 10, 11⟩).2.2 (by decide)
    ⟨1, 9, false⟩ (by decide) (by decide) (by decide)
